import Mathlib

/-! Verification of the directory-statistics collector of this repository
(src/skills/codebase-stats/tools/codebase_stats.py).

The filesystem is modelled as a tree of named entries.  Per-file
observations that the Python code makes through the OS (stat, the binary
open and its 2048-byte sample, the text open used by line_count) are
recorded in a FileMeta record.  The walk performed by os.walk together
with the in-place dirs/files filters of collect_stats is modelled as a
trace of visit events (traceWalk), and the body of the walk loop as a
replay over that trace (replay); the filesystem is static during a scan,
so this factorisation is observationally exact: collect_stats is the
replay of the trace from the empty accumulator. -/

/-- Decoded unit of a file's byte stream as seen by the text reader:
either a correctly decoded character or one malformed byte.  The Python
code opens files with encoding utf-8 and errors set to ignore, which
drops malformed bytes from the decoded text. -/
inductive Tok where
  | ch (c : Char)
  | bad
deriving DecidableEq

/-- Everything the scanner observes about one non-directory entry.
statOk: path.stat() succeeds; size: st_size; isFile: Path.is_file()
(follows symlinks); isSymlink: Path.is_symlink(); binOpenOk: the binary
open and 2048-byte sample read in is_binary_or_too_large succeed;
hasNul: the sampled first 2048 bytes contain a NUL byte; readOk: the
text open and full read performed by line_count succeed; content: the
byte stream of the file as decoding units. -/
structure FileMeta where
  statOk : Bool
  size : Nat
  isFile : Bool
  isSymlink : Bool
  binOpenOk : Bool
  hasNul : Bool
  readOk : Bool
  content : List Tok
deriving DecidableEq

mutual
/-- One directory entry: a non-directory (file, symlink, special file,
as described by its FileMeta) or a subdirectory with its listing. -/
inductive Entry where
  | file (name : String) (meta : FileMeta)
  | dir (name : String) (entries : EntryList)
/-- Directory listing, in the order os.scandir reports the entries. -/
inductive EntryList where
  | nil
  | cons (e : Entry) (rest : EntryList)
end

/-- Non-directory children of a listing, in listing order (the files
sequence of an os.walk triple). -/
def filesOf : EntryList → List (String × FileMeta)
  | .nil => []
  | .cons (.file n m) rest => (n, m) :: filesOf rest
  | .cons (.dir _ _) rest => filesOf rest

/-- Size threshold of is_binary_or_too_large (codebase_stats.py line 13). -/
def MAX_TEXT_FILE_BYTES : Nat := 2 * 1024 * 1024

/-- Index of the last dot in a name, if any. -/
def lastDotIdx : List Char → Option Nat
  | [] => none
  | c :: rest =>
    match lastDotIdx rest with
    | some i => some (i + 1)
    | none => if c = '.' then some 0 else none

/-- pathlib.PurePath.suffix on a file name: the part of the name from
the last dot on, provided that dot is neither the first nor the last
character of the name; otherwise the empty suffix. -/
def path_suffix (cs : List Char) : List Char :=
  match lastDotIdx cs with
  | some i => if 0 < i ∧ i + 1 < cs.length then cs.drop i else []
  | none => []

/-- str.lstrip with the single argument ".": drop leading dots. -/
def lstripDots (cs : List Char) : List Char := cs.dropWhile (fun c => c = '.')

/-- normalize_ext (codebase_stats.py lines 57-61): the suffix of the
path, lower-cased, with leading dots stripped; the sentinel no_ext when
that leaves nothing. -/
def normalize_ext (name : String) : String :=
  let suffix := lstripDots ((path_suffix name.data).map Char.toLower)
  if suffix ≠ [] then String.mk suffix else "no_ext"

/-- Decoding with errors set to ignore: malformed bytes are dropped. -/
def decodeIgnore : List Tok → List Char
  | [] => []
  | .ch c :: rest => c :: decodeIgnore rest
  | .bad :: rest => decodeIgnore rest

/-- Decoding with errors set to replace: each malformed byte becomes the
replacement character U+FFFD.  This follows the wording of the spec
(malformed byte sequences are replaced); the source uses ignore. -/
def decodeReplace : List Tok → List Char
  | [] => []
  | .ch c :: rest => c :: decodeReplace rest
  | .bad :: rest => Char.ofNat 0xFFFD :: decodeReplace rest

/-- Universal-newline translation performed by text-mode reading:
CR LF and lone CR both become LF. -/
def translateNewlines : List Char → List Char
  | [] => []
  | '\r' :: '\n' :: rest => '\n' :: translateNewlines rest
  | '\r' :: rest => '\n' :: translateNewlines rest
  | c :: rest => c :: translateNewlines rest

/-- Number of lines yielded by iterating a text file whose translated
decoded content is the given characters.  The flag records whether a
line is currently open (characters seen since the last LF). -/
def countLinesAux : Bool → List Char → Nat
  | inLine, [] => if inLine then 1 else 0
  | _, c :: rest => if c = '\n' then 1 + countLinesAux false rest else countLinesAux true rest

/-- Number of lines Python file iteration yields for the given text. -/
def countLines (cs : List Char) : Nat := countLinesAux false cs

/-- line_count (codebase_stats.py lines 64-69): iterate the file opened
in text mode with utf-8 decoding and errors set to ignore, counting the
yielded lines.  (The function has no exception handler; the model
represents a failing text open or read by meta.readOk = false, handled
at the call site in processFile.) -/
def line_count (m : FileMeta) : Nat := countLines (translateNewlines (decodeIgnore m.content))

/-- Follows the wording of the spec for line counting: as line_count but
with malformed byte sequences replaced instead of ignored, for
comparison with the source's behaviour. -/
def line_count_replacing (m : FileMeta) : Nat :=
  countLines (translateNewlines (decodeReplace m.content))

/-- is_binary_or_too_large (codebase_stats.py lines 72-85): a stat
failure, a size above the threshold, a failing binary open or sample
read, or a NUL byte in the first 2048 bytes all reject the file. -/
def is_binary_or_too_large (m : FileMeta) : Bool :=
  if !m.statOk then true
  else if m.size > MAX_TEXT_FILE_BYTES then true
  else if !m.binOpenOk then true
  else m.hasNul

/-- should_skip_name (codebase_stats.py lines 88-91): with hidden
entries included nothing is skipped; otherwise names starting with a
dot are skipped. -/
def should_skip_name (name : String) (includeHidden : Bool) : Bool :=
  if includeHidden then false
  else
    match name.data with
    | '.' :: _ => true
    | _ => false

/-- within_depth (codebase_stats.py lines 94-96): the number of path
segments between the scan root and the current directory (the length of
relative_to's parts, passed here directly as depth) must not exceed
max_depth. -/
def within_depth (depth maxDepth : Nat) : Bool := depth ≤ maxDepth

/-- Code-point lexicographic comparison of character lists, the order
Python uses to compare strings. -/
def lexLE : List Char → List Char → Bool
  | [], _ => true
  | _ :: _, [] => false
  | a :: as, b :: bs =>
    if a.toNat < b.toNat then true
    else if b.toNat < a.toNat then false
    else lexLE as bs

/-- Python string comparison, code-point lexicographic. -/
def strLE (a b : String) : Bool := lexLE a.data b.data

/-- Stable insertion of an element into a sorted list: the element goes
before the first entry it is ≤ to.  Used to model Python's stable
sorts. -/
def insertLE {α : Type} (le : α → α → Bool) (x : α) : List α → List α
  | [] => [x]
  | y :: ys => if le x y then x :: y :: ys else y :: insertLE le x ys

/-- Stable insertion sort, modelling Python's sorted and list.sort. -/
def sortLE {α : Type} (le : α → α → Bool) : List α → List α
  | [] => []
  | x :: xs => insertLE le x (sortLE le xs)

/-- sorted(files) in collect_stats: files of one directory in ascending
name order. -/
def sortByName (l : List (String × FileMeta)) : List (String × FileMeta) :=
  sortLE (fun p q => strLE p.1 q.1) l

/-- Visit event of the walk: one directory surviving the depth check
(dirE), or one file reaching the body of the inner loop (fileE). -/
inductive Ev where
  | dirE
  | fileE (name : String) (m : FileMeta)
deriving DecidableEq

/-- File events of one visited directory: its non-directory entries,
hidden names dropped unless includeHidden, in ascending name order. -/
def fileEvsOf (includeHidden : Bool) (entries : EntryList) : List Ev :=
  (sortByName ((filesOf entries).filter
      (fun p => !should_skip_name p.1 includeHidden))).map
    (fun p => Ev.fileE p.1 p.2)

/-- Visit events contributed by the subdirectories of a directory
sitting at the given depth: hidden subdirectories are pruned by the
dirs filter of collect_stats; a subdirectory beyond max_depth is
yielded by os.walk but collect_stats clears its dirs and continues, so
it contributes nothing; otherwise the subdirectory contributes its
dirE, its file events and, recursively, its own subdirectories, in
listing order (os.walk is top-down and depth-first). -/
def traceSubs (includeHidden : Bool) (maxDepth : Nat) : Nat → EntryList → List Ev
  | _, .nil => []
  | depth, .cons (.file _ _) rest => traceSubs includeHidden maxDepth depth rest
  | depth, .cons (.dir n sub) rest =>
    (if should_skip_name n includeHidden then []
     else if !within_depth (depth + 1) maxDepth then []
     else Ev.dirE :: (fileEvsOf includeHidden sub ++ traceSubs includeHidden maxDepth (depth + 1) sub))
    ++ traceSubs includeHidden maxDepth depth rest

/-- Visit events of the whole walk of collect_stats: the root directory
at depth 0, then its subtree. -/
def traceWalk (includeHidden : Bool) (maxDepth : Nat) (root : EntryList) : List Ev :=
  if !within_depth 0 maxDepth then []
  else Ev.dirE :: (fileEvsOf includeHidden root ++ traceSubs includeHidden maxDepth 0 root)

/-- Accumulator of collect_stats: ext_stats is the insertion-ordered
dict mapping a normalized extension to its (files, lines) bucket. -/
structure Stats where
  extStats : List (String × Nat × Nat)
  scannedFiles : Nat
  scannedDirs : Nat
  skippedFiles : Nat
  totalLines : Nat
  truncated : Bool
deriving DecidableEq

/-- Outcome of running the walk loop: normal completion, the early
return taken when the file cap is exceeded, or an uncaught exception
escaping collect_stats. -/
inductive WalkRes where
  | ok (s : Stats)
  | capped (s : Stats)
  | err
deriving DecidableEq

/-- ext_stats.setdefault(ext, zero bucket) followed by the two bucket
increments: update the bucket in place, or append a fresh one. -/
def bumpExt (ext : String) (lines : Nat) : List (String × Nat × Nat) → List (String × Nat × Nat)
  | [] => [(ext, 1, lines)]
  | (e, f, l) :: rest =>
    if e = ext then (e, f + 1, l + lines) :: rest
    else (e, f, l) :: bumpExt ext lines rest

/-- Body of the inner file loop of collect_stats (lines 119-143): a
non-regular file or symlink is skipped; a binary or oversized file is
skipped; then the counter is incremented and, if it exceeds max_files,
the early return fires with scanned_files reported as max_files and
truncated set; otherwise line_count runs (raising if the text read
fails, which nothing catches) and the totals and the extension bucket
are updated. -/
def processFile (maxFiles : Nat) (name : String) (m : FileMeta) (st : Stats) : WalkRes :=
  if !m.isFile || m.isSymlink then
    .ok { st with skippedFiles := st.skippedFiles + 1 }
  else if is_binary_or_too_large m then
    .ok { st with skippedFiles := st.skippedFiles + 1 }
  else if st.scannedFiles + 1 > maxFiles then
    .capped { st with scannedFiles := maxFiles, truncated := true }
  else if !m.readOk then
    .err
  else
    let lines := line_count m
    .ok { st with
      scannedFiles := st.scannedFiles + 1,
      totalLines := st.totalLines + lines,
      extStats := bumpExt (normalize_ext name) lines st.extStats }

/-- Replay of the walk loop over the visit events: each visited
directory increments scanned_dirs, each file goes through the loop
body; the early return and an escaping exception both stop the replay
at once. -/
def replay (maxFiles : Nat) : List Ev → Stats → WalkRes
  | [], st => .ok st
  | .dirE :: rest, st =>
    replay maxFiles rest { st with scannedDirs := st.scannedDirs + 1 }
  | .fileE n m :: rest, st =>
    match processFile maxFiles n m st with
    | .ok st' => replay maxFiles rest st'
    | r => r

/-- Empty accumulator at scan start. -/
def Stats.init : Stats :=
  { extStats := [], scannedFiles := 0, scannedDirs := 0, skippedFiles := 0,
    totalLines := 0, truncated := false }

/-- collect_stats (codebase_stats.py lines 99-151): walk the tree from
the root, feeding every visit through the loop body.  A normal or
capped run returns its accumulator; an uncaught per-file exception
aborts the scan with no result. -/
def collect_stats (root : EntryList) (maxDepth : Nat) (includeHidden : Bool) (maxFiles : Nat) :
    Option Stats :=
  match replay maxFiles (traceWalk includeHidden maxDepth root) Stats.init with
  | .ok s => some s
  | .capped s => some s
  | .err => none

/-- One entry of the ranked extension list of build_output. -/
structure ExtGroup where
  ext : String
  files : Nat
  lines : Nat
deriving DecidableEq

/-- Sort key comparison of build_output (line 166): the tuple
(-files, -lines, ext) in ascending lexicographic order, so files
descending, then lines descending, then extension name ascending. -/
def groupLE (a b : ExtGroup) : Bool :=
  if a.files = b.files then
    (if a.lines = b.lines then strLE a.ext b.ext else decide (b.lines < a.lines))
  else decide (b.files < a.files)

/-- Fields of the output record of build_output that the data model
covers (the echoed root path and the wall-clock timestamp are
environment values outside the model). -/
structure Output where
  status : String
  tool : String
  scanned_files : Nat
  scanned_dirs : Nat
  skipped_files : Nat
  total_lines : Nat
  top_extensions : List ExtGroup
  truncated : Bool
deriving DecidableEq

/-- build_output (codebase_stats.py lines 154-181): turn every bucket
into a group in dict insertion order, sort by the ranking key, keep the
first top_extensions entries, and copy the counters unchanged. -/
def build_output (stats : Stats) (topExtensions : Nat) : Output :=
  let groups := stats.extStats.map (fun p => ExtGroup.mk p.1 p.2.1 p.2.2)
  { status := "ok"
    tool := "codebase_stats"
    scanned_files := stats.scannedFiles
    scanned_dirs := stats.scannedDirs
    skipped_files := stats.skippedFiles
    total_lines := stats.totalLines
    top_extensions := (sortLE groupLE groups).take topExtensions
    truncated := stats.truncated }

/-- Eligibility of a file that the walk visits: regular, not a symlink,
and passing the binary and size checks.  Exactly the files accepted by
the loop body (ignoring the cap). -/
def eligibleFile (m : FileMeta) : Bool :=
  m.isFile && !m.isSymlink && !is_binary_or_too_large m

/-- Event of an eligible visited file. -/
def isEligEv : Ev → Bool
  | .dirE => false
  | .fileE _ m => eligibleFile m

/-- Number of eligible files among the visited events. -/
def eligCount (evs : List Ev) : Nat := evs.countP isEligEv

/-- Every visited file can be opened and read in text mode. -/
def evsReadOk (evs : List Ev) : Bool :=
  evs.all (fun e => match e with | .dirE => true | .fileE _ m => m.readOk)

/-- Sum of the lines field over the extension buckets. -/
def sumLines (l : List (String × Nat × Nat)) : Nat :=
  (l.map (fun p => p.2.2)).sum

/-- Replace the listings of all directories at relative depth k+1 with
empty listings, leaving everything at depth at most k+1 intact (the
directories themselves, all files down to depth k+1, all names). -/
def pruneBeyond : Nat → EntryList → EntryList
  | _, .nil => .nil
  | k, .cons (.file n m) rest => .cons (.file n m) (pruneBeyond k rest)
  | 0, .cons (.dir n _) rest => .cons (.dir n .nil) (pruneBeyond 0 rest)
  | k + 1, .cons (.dir n sub) rest => .cons (.dir n (pruneBeyond k sub)) (pruneBeyond (k + 1) rest)

def statsConsistent (s : Stats) : Prop :=
  s.totalLines = sumLines s.extStats ∧ s.extStats.Pairwise (fun p q => p.1 ≠ q.1)

def trailingTerm (cs : List Char) (emptyVal : Nat) : Nat :=
  match cs.getLast? with
  | some c => if c = '\n' then 0 else 1
  | none => emptyVal

/-- Follows the wording of the spec for extension normalization, as an
independent formulation: the final dotted suffix is located by scanning
the reversed name up to its last dot; it exists when the name contains
a dot that is neither its last character (the scanned tail is nonempty)
nor its first character (at least one character precedes the last dot);
the suffix is then lower-cased and its leading dot stripped, and a name
without such a suffix falls into the sentinel bucket. -/
def normalize_ext_from_spec (name : String) : String :=
  let r := name.data.reverse
  let tail := r.takeWhile (fun c => decide (c ≠ '.'))
  if ('.' ∈ name.data) ∧ tail ≠ [] ∧ 2 ≤ (r.dropWhile (fun c => decide (c ≠ '.'))).length then
    String.mk (lstripDots (List.map Char.toLower ('.' :: tail.reverse)))
  else "no_ext"

def strLT (a b : String) : Prop := strLE a b = true ∧ a ≠ b

/-- Strict ranking order of the report: more files first, then more
lines, then alphabetically earlier extension name. -/
def rankLT (a b : ExtGroup) : Prop :=
  b.files < a.files ∨ (a.files = b.files ∧
    (b.lines < a.lines ∨ (a.lines = b.lines ∧ strLT a.ext b.ext)))

/-! Concrete fixtures used by the witnesses. -/

def mText (content : List Tok) : FileMeta :=
  { statOk := true, size := 100, isFile := true, isSymlink := false,
    binOpenOk := true, hasNul := false, readOk := true, content := content }

def tokLine1 : List Tok := [.ch 'a', .ch '\n']

def tokLine2 : List Tok := [.ch 'a', .ch '\n', .ch 'b', .ch '\n']

def tokLine3 : List Tok := [.ch 'a', .ch '\n', .ch 'b', .ch '\n', .ch 'c']

def mSymlink : FileMeta := { mText tokLine1 with isSymlink := true }

def mNul : FileMeta := { mText tokLine1 with hasNul := true }

def mStatFail : FileMeta := { mText tokLine1 with statOk := false }

def mReadFail : FileMeta := { mText tokLine1 with readOk := false }

def wTree : EntryList :=
  .cons (.file "b.py" (mText tokLine2))
    (.cons (.file "a.py" (mText tokLine1))
      (.cons (.dir "sub" (.cons (.file "c.md" (mText tokLine3)) .nil))
        (.cons (.file ".hid.py" (mText tokLine1))
          (.cons (.file "ln.py" mSymlink)
            (.cons (.file "bin.dat" mNul) .nil)))))

def wStats : Stats :=
  { extStats := [("py", 2, 3), ("md", 1, 3)], scannedFiles := 3, scannedDirs := 2,
    skippedFiles := 2, totalLines := 6, truncated := false }

def wStatsHidden : Stats :=
  { extStats := [("py", 3, 4), ("md", 1, 3)], scannedFiles := 4, scannedDirs := 2,
    skippedFiles := 2, totalLines := 7, truncated := false }

def wStatsCap : Stats :=
  { extStats := [("py", 2, 3)], scannedFiles := 2, scannedDirs := 2,
    skippedFiles := 2, totalLines := 3, truncated := true }

def wTreeDepth : EntryList :=
  .cons (.dir "a" (.cons (.file "f.txt" (mText tokLine1)) .nil)) .nil

def wTreeDeep : EntryList :=
  .cons (.dir "a" (.cons (.dir "b" (.cons (.file "deep.txt" (mText tokLine1)) .nil)) .nil))
    (.cons (.file "top.txt" (mText tokLine1)) .nil)

/-! Lemmas about the stable insertion sort. -/

theorem insertLE_perm {α : Type} (le : α → α → Bool) (x : α) (l : List α) :
    (insertLE le x l).Perm (x :: l) := by
  induction l with
  | nil => simp [insertLE]
  | cons y ys ih =>
    cases hxy : le x y with
    | true => simp [insertLE, hxy]
    | false =>
      simp only [insertLE, hxy, Bool.false_eq_true, if_false]
      exact (ih.cons y).trans (List.Perm.swap x y ys)

theorem sortLE_perm {α : Type} (le : α → α → Bool) (l : List α) :
    (sortLE le l).Perm l := by
  induction l with
  | nil => simp [sortLE]
  | cons x xs ih => exact (insertLE_perm le x (sortLE le xs)).trans (ih.cons x)

theorem mem_insertLE {α : Type} (le : α → α → Bool) (x : α) (l : List α) (z : α) :
    z ∈ insertLE le x l ↔ z = x ∨ z ∈ l := by
  rw [(insertLE_perm le x l).mem_iff]
  simp

theorem pairwise_insertLE {α : Type} (le : α → α → Bool)
    (htot : ∀ a b, le a b = true ∨ le b a = true)
    (htrans : ∀ a b c, le a b = true → le b c = true → le a c = true)
    (x : α) (l : List α) (hl : l.Pairwise (fun a b => le a b = true)) :
    (insertLE le x l).Pairwise (fun a b => le a b = true) := by
  induction l with
  | nil => simp [insertLE]
  | cons y ys ih =>
    rcases List.pairwise_cons.mp hl with ⟨hy, hys⟩
    cases hxy : le x y with
    | true =>
      simp only [insertLE, hxy, if_true]
      refine List.pairwise_cons.mpr ⟨?_, hl⟩
      intro z hz
      rcases List.mem_cons.mp hz with hz | hz
      · exact hz ▸ hxy
      · exact htrans x y z hxy (hy z hz)
    | false =>
      simp only [insertLE, hxy, Bool.false_eq_true, if_false]
      refine List.pairwise_cons.mpr ⟨?_, ih hys⟩
      intro z hz
      rcases (mem_insertLE le x ys z).mp hz with hz | hz
      · rw [hz]
        rcases htot x y with h | h
        · exact absurd h (by simp [hxy])
        · exact h
      · exact hy z hz

theorem pairwise_sortLE {α : Type} (le : α → α → Bool)
    (htot : ∀ a b, le a b = true ∨ le b a = true)
    (htrans : ∀ a b c, le a b = true → le b c = true → le a c = true)
    (l : List α) : (sortLE le l).Pairwise (fun a b => le a b = true) := by
  induction l with
  | nil => simp [sortLE]
  | cons x xs ih => exact pairwise_insertLE le htot htrans x (sortLE le xs) ih

/-! Lemmas about the loop body and the replay of the walk. -/

theorem eligCount_cons_true {e : Ev} (rest : List Ev) (h : isEligEv e = true) :
    eligCount (e :: rest) = eligCount rest + 1 := by
  simp [eligCount, List.countP_cons, h]

theorem eligCount_cons_false {e : Ev} (rest : List Ev) (h : isEligEv e = false) :
    eligCount (e :: rest) = eligCount rest := by
  simp [eligCount, List.countP_cons, h]

theorem processFile_cases (maxF : Nat) (n : String) (m : FileMeta) (st : Stats) :
    (eligibleFile m = false ∧
      processFile maxF n m st = .ok { st with skippedFiles := st.skippedFiles + 1 })
    ∨ (eligibleFile m = true ∧ maxF < st.scannedFiles + 1 ∧
      processFile maxF n m st = .capped { st with scannedFiles := maxF, truncated := true })
    ∨ (eligibleFile m = true ∧ st.scannedFiles + 1 ≤ maxF ∧ m.readOk = false ∧
      processFile maxF n m st = .err)
    ∨ (eligibleFile m = true ∧ st.scannedFiles + 1 ≤ maxF ∧ m.readOk = true ∧
      processFile maxF n m st = .ok { st with
        scannedFiles := st.scannedFiles + 1,
        totalLines := st.totalLines + line_count m,
        extStats := bumpExt (normalize_ext n) (line_count m) st.extStats }) := by
  unfold processFile eligibleFile
  cases hf : m.isFile with
  | false => simp [hf]
  | true =>
    cases hs : m.isSymlink with
    | true => simp [hf, hs]
    | false =>
      cases hb : is_binary_or_too_large m with
      | true => simp [hf, hs, hb]
      | false =>
        by_cases hcap : st.scannedFiles + 1 > maxF
        · simp [hf, hs, hb, hcap]
        · cases hr : m.readOk with
          | false => simp [hf, hs, hb, hcap, hr]; omega
          | true => simp [hf, hs, hb, hcap, hr]; omega

theorem replay_ok_spec (maxF : Nat) : ∀ (evs : List Ev) (st st' : Stats),
    st.scannedFiles ≤ maxF → st.truncated = false →
    replay maxF evs st = .ok st' →
    st'.scannedFiles = st.scannedFiles + eligCount evs ∧ st'.scannedFiles ≤ maxF ∧
      st'.truncated = false := by
  intro evs
  induction evs with
  | nil =>
    intro st st' h1 h2 h3
    cases h3
    simp [eligCount, h1, h2]
  | cons e rest ih =>
    intro st st' h1 h2 h3
    cases e with
    | dirE =>
      simp only [replay] at h3
      have := ih { st with scannedDirs := st.scannedDirs + 1 } st'
        (by simpa using h1) (by simpa using h2) h3
      rw [eligCount_cons_false rest (by simp [isEligEv])]
      simpa using this
    | fileE n m =>
      rcases processFile_cases maxF n m st with ⟨hne, heq⟩ | ⟨helig, hcap, heq⟩ |
        ⟨helig, hle, hro, heq⟩ | ⟨helig, hle, hro, heq⟩
      · simp only [replay, heq] at h3
        have := ih { st with skippedFiles := st.skippedFiles + 1 } st'
          (by simpa using h1) (by simpa using h2) h3
        rw [eligCount_cons_false rest (by simp [isEligEv, hne])]
        simpa using this
      · simp [replay, heq] at h3
      · simp [replay, heq] at h3
      · simp only [replay, heq] at h3
        have := ih _ st' (by simpa using hle) (by simpa using h2) h3
        rw [eligCount_cons_true rest (by simp [isEligEv, helig])]
        simp at this
        obtain ⟨ha, hb, hc⟩ := this
        exact ⟨by omega, hb, hc⟩

theorem replay_capped_spec (maxF : Nat) : ∀ (evs : List Ev) (st st' : Stats),
    st.scannedFiles ≤ maxF → st.truncated = false →
    replay maxF evs st = .capped st' →
    st'.scannedFiles = maxF ∧ st'.truncated = true ∧
      maxF < st.scannedFiles + eligCount evs := by
  intro evs
  induction evs with
  | nil => intro st st' h1 h2 h3; cases h3
  | cons e rest ih =>
    intro st st' h1 h2 h3
    cases e with
    | dirE =>
      simp only [replay] at h3
      have := ih { st with scannedDirs := st.scannedDirs + 1 } st'
        (by simpa using h1) (by simpa using h2) h3
      rw [eligCount_cons_false rest (by simp [isEligEv])]
      simpa using this
    | fileE n m =>
      rcases processFile_cases maxF n m st with ⟨hne, heq⟩ | ⟨helig, hcap, heq⟩ |
        ⟨helig, hle, hro, heq⟩ | ⟨helig, hle, hro, heq⟩
      · simp only [replay, heq] at h3
        have := ih { st with skippedFiles := st.skippedFiles + 1 } st'
          (by simpa using h1) (by simpa using h2) h3
        rw [eligCount_cons_false rest (by simp [isEligEv, hne])]
        simpa using this
      · simp only [replay, heq] at h3
        cases h3
        rw [eligCount_cons_true rest (by simp [isEligEv, helig])]
        exact ⟨rfl, rfl, by omega⟩
      · simp [replay, heq] at h3
      · simp only [replay, heq] at h3
        have := ih _ st' (by simpa using hle) (by simpa using h2) h3
        rw [eligCount_cons_true rest (by simp [isEligEv, helig])]
        simp at this
        obtain ⟨ha, hb, hc⟩ := this
        exact ⟨ha, hb, by omega⟩

theorem replay_capped_split (maxF : Nat) : ∀ (evs : List Ev) (st st' : Stats),
    st.scannedFiles ≤ maxF → st.truncated = false →
    replay maxF evs st = .capped st' →
    ∃ pre nm m post, evs = pre ++ Ev.fileE nm m :: post ∧ eligibleFile m = true ∧
      replay maxF pre st = .ok { st' with truncated := false } ∧
      st'.scannedFiles = maxF := by
  intro evs
  induction evs with
  | nil => intro st st' h1 h2 h3; cases h3
  | cons e rest ih =>
    intro st st' h1 h2 h3
    cases e with
    | dirE =>
      simp only [replay] at h3
      obtain ⟨pre, nm, m, post, hsplit, helig, hpre, hmax⟩ :=
        ih { st with scannedDirs := st.scannedDirs + 1 } st'
          (by simpa using h1) (by simpa using h2) h3
      exact ⟨Ev.dirE :: pre, nm, m, post, by simp [hsplit], helig, by simpa [replay] using hpre, hmax⟩
    | fileE n m =>
      rcases processFile_cases maxF n m st with ⟨hne, heq⟩ | ⟨helig, hcap, heq⟩ |
        ⟨helig, hle, hro, heq⟩ | ⟨helig, hle, hro, heq⟩
      · simp only [replay, heq] at h3
        obtain ⟨pre, nm, m', post, hsplit, helig, hpre, hmax⟩ :=
          ih { st with skippedFiles := st.skippedFiles + 1 } st'
            (by simpa using h1) (by simpa using h2) h3
        exact ⟨Ev.fileE n m :: pre, nm, m', post, by simp [hsplit], helig,
          by simpa [replay, heq] using hpre, hmax⟩
      · simp only [replay, heq] at h3
        cases h3
        have hsc : st.scannedFiles = maxF := by omega
        refine ⟨[], n, m, rest, rfl, helig, ?_, rfl⟩
        simp only [replay]
        congr 1
        cases st
        simp_all
      · simp [replay, heq] at h3
      · simp only [replay, heq] at h3
        obtain ⟨pre, nm, m', post, hsplit, helig', hpre, hmax⟩ :=
          ih _ st' (by simpa using hle) (by simpa using h2) h3
        exact ⟨Ev.fileE n m :: pre, nm, m', post, by simp [hsplit], helig',
          by simpa [replay, heq] using hpre, hmax⟩

theorem replay_no_err (maxF : Nat) : ∀ (evs : List Ev) (st : Stats),
    evsReadOk evs = true → replay maxF evs st ≠ .err := by
  intro evs
  induction evs with
  | nil => intro st _ h; cases h
  | cons e rest ih =>
    intro st hro
    rw [evsReadOk, List.all_cons, Bool.and_eq_true] at hro
    cases e with
    | dirE => exact ih _ hro.2
    | fileE n m =>
      rcases processFile_cases maxF n m st with ⟨hne, heq⟩ | ⟨helig, hcap, heq⟩ |
        ⟨helig, hle, hro', heq⟩ | ⟨helig, hle, hro', heq⟩
      · simp only [replay, heq]; exact ih _ hro.2
      · simp only [replay, heq]; intro h; cases h
      · exact absurd hro' (by simpa using hro.1)
      · simp only [replay, heq]; exact ih _ hro.2

/-! Internal consistency of the accumulator. -/

theorem bumpExt_cons_eq {a e : String} (h : a = e) (L f ln : Nat)
    (rest : List (String × Nat × Nat)) :
    bumpExt e L ((a, f, ln) :: rest) = (a, f + 1, ln + L) :: rest := by
  simp [bumpExt, h]

theorem bumpExt_cons_ne {a e : String} (h : ¬a = e) (L f ln : Nat)
    (rest : List (String × Nat × Nat)) :
    bumpExt e L ((a, f, ln) :: rest) = (a, f, ln) :: bumpExt e L rest := by
  simp [bumpExt, h]

theorem sumLines_bumpExt (e : String) (L : Nat) : ∀ (l : List (String × Nat × Nat)),
    sumLines (bumpExt e L l) = sumLines l + L := by
  intro l
  induction l with
  | nil => simp [bumpExt, sumLines]
  | cons p rest ih =>
    obtain ⟨a, f, ln⟩ := p
    by_cases h : a = e
    · rw [bumpExt_cons_eq h]
      simp [sumLines]
      omega
    · rw [bumpExt_cons_ne h]
      simp only [sumLines, List.map_cons, List.sum_cons] at *
      omega

theorem mem_bumpExt_fst (e : String) (L : Nat) : ∀ (l : List (String × Nat × Nat))
    (q : String × Nat × Nat), q ∈ bumpExt e L l → q.1 = e ∨ q.1 ∈ l.map Prod.fst := by
  intro l
  induction l with
  | nil =>
    intro q hq
    simp only [bumpExt, List.mem_singleton] at hq
    left
    rw [hq]
  | cons p rest ih =>
    intro q hq
    obtain ⟨a, f, ln⟩ := p
    by_cases h : a = e
    · rw [bumpExt_cons_eq h] at hq
      rcases List.mem_cons.mp hq with hq | hq
      · left
        rw [hq]
        exact h
      · right
        rw [List.map_cons]
        exact List.mem_cons_of_mem _ (List.mem_map_of_mem Prod.fst hq)
    · rw [bumpExt_cons_ne h] at hq
      rcases List.mem_cons.mp hq with hq | hq
      · right
        rw [hq, List.map_cons]
        exact List.mem_cons_self _ _
      · rcases ih q hq with h1 | h1
        · left
          exact h1
        · right
          rw [List.map_cons]
          exact List.mem_cons_of_mem _ h1

theorem pairwiseNe_bumpExt (e : String) (L : Nat) : ∀ (l : List (String × Nat × Nat)),
    l.Pairwise (fun p q => p.1 ≠ q.1) → (bumpExt e L l).Pairwise (fun p q => p.1 ≠ q.1) := by
  intro l
  induction l with
  | nil => simp [bumpExt]
  | cons p rest ih =>
    intro hl
    obtain ⟨a, f, ln⟩ := p
    rcases List.pairwise_cons.mp hl with ⟨hhead, hrest⟩
    by_cases h : a = e
    · rw [bumpExt_cons_eq h]
      exact List.pairwise_cons.mpr ⟨fun q hq => hhead q hq, hrest⟩
    · rw [bumpExt_cons_ne h]
      refine List.pairwise_cons.mpr ⟨?_, ih hrest⟩
      intro q hq
      rcases mem_bumpExt_fst e L rest q hq with h1 | h1
      · rw [h1]
        exact h
      · rcases List.mem_map.mp h1 with ⟨p', hp', hfst⟩
        rw [← hfst]
        exact hhead p' hp'

theorem replay_consistent (maxF : Nat) : ∀ (evs : List Ev) (st st' : Stats),
    statsConsistent st →
    (replay maxF evs st = .ok st' ∨ replay maxF evs st = .capped st') →
    statsConsistent st' := by
  intro evs
  induction evs with
  | nil =>
    intro st st' hc h
    rcases h with h | h
    · cases h; exact hc
    · cases h
  | cons e rest ih =>
    intro st st' hc h
    cases e with
    | dirE =>
      simp only [replay] at h
      exact ih { st with scannedDirs := st.scannedDirs + 1 } st' ⟨hc.1, hc.2⟩ h
    | fileE n m =>
      rcases processFile_cases maxF n m st with ⟨hne, heq⟩ | ⟨helig, hcap, heq⟩ |
        ⟨helig, hle, hro, heq⟩ | ⟨helig, hle, hro, heq⟩
      · simp only [replay, heq] at h
        exact ih { st with skippedFiles := st.skippedFiles + 1 } st' ⟨hc.1, hc.2⟩ h
      · simp only [replay, heq] at h
        rcases h with h | h
        · cases h
        · cases h
          exact ⟨hc.1, hc.2⟩
      · simp only [replay, heq] at h
        rcases h with h | h <;> cases h
      · simp only [replay, heq] at h
        refine ih _ st' ⟨?_, ?_⟩ h
        · simp only [sumLines_bumpExt]
          simp [hc.1]
        · exact pairwiseNe_bumpExt _ _ _ hc.2

/-! From the replay lemmas to collect_stats. -/

theorem collect_stats_some (root : EntryList) (maxD : Nat) (ihid : Bool) (maxF : Nat)
    (s : Stats) (h : collect_stats root maxD ihid maxF = some s) :
    replay maxF (traceWalk ihid maxD root) Stats.init = .ok s ∨
      replay maxF (traceWalk ihid maxD root) Stats.init = .capped s := by
  unfold collect_stats at h
  cases hr : replay maxF (traceWalk ihid maxD root) Stats.init with
  | ok t =>
    rw [hr] at h
    simp only [Option.some.injEq] at h
    left
    rw [h]
  | capped t =>
    rw [hr] at h
    simp only [Option.some.injEq] at h
    right
    rw [h]
  | err =>
    rw [hr] at h
    cases h

theorem statsConsistent_init : statsConsistent Stats.init := by
  constructor <;> simp [Stats.init, sumLines, statsConsistent]

theorem collect_scanned_min (root : EntryList) (maxD : Nat) (ihid : Bool) (maxF : Nat)
    (s : Stats) (h : collect_stats root maxD ihid maxF = some s) :
    s.scannedFiles = min (eligCount (traceWalk ihid maxD root)) maxF := by
  rcases collect_stats_some root maxD ihid maxF s h with hr | hr
  · have := replay_ok_spec maxF _ _ _ (by simp [Stats.init]) (by simp [Stats.init]) hr
    simp only [Stats.init] at this
    omega
  · have := replay_capped_spec maxF _ _ _ (by simp [Stats.init]) (by simp [Stats.init]) hr
    simp only [Stats.init] at this
    omega

/-! Lemmas about the trace of the walk. -/

theorem should_skip_name_hidden_true (n : String) : should_skip_name n true = false := rfl

theorem eligCount_nil : eligCount [] = 0 := by simp [eligCount]

theorem eligCount_append (a b : List Ev) :
    eligCount (a ++ b) = eligCount a + eligCount b := by
  simp [eligCount, List.countP_append]

theorem eligCount_fileEvsOf (ihid : Bool) (entries : EntryList) :
    eligCount (fileEvsOf ihid entries) =
      ((filesOf entries).filter (fun p => !should_skip_name p.1 ihid)).countP
        (fun p => eligibleFile p.2) := by
  unfold fileEvsOf sortByName eligCount
  rw [List.countP_map]
  have hperm := sortLE_perm (fun p q : String × FileMeta => strLE p.1 q.1)
    ((filesOf entries).filter (fun p => !should_skip_name p.1 ihid))
  rw [hperm.countP_eq]
  rfl

theorem eligCount_fileEvsOf_mono (entries : EntryList) :
    eligCount (fileEvsOf false entries) ≤ eligCount (fileEvsOf true entries) := by
  rw [eligCount_fileEvsOf, eligCount_fileEvsOf]
  have h1 : (filesOf entries).filter (fun p => !should_skip_name p.1 true) = filesOf entries := by
    simp [should_skip_name_hidden_true]
  rw [h1]
  exact ((filesOf entries).filter_sublist).countP_le _

theorem eligCount_dirE_cons (rest : List Ev) : eligCount (Ev.dirE :: rest) = eligCount rest := by
  simp [eligCount, List.countP_cons, isEligEv]

theorem eligCount_traceSubs_mono (maxD : Nat) : ∀ (depth : Nat) (l : EntryList),
    eligCount (traceSubs false maxD depth l) ≤ eligCount (traceSubs true maxD depth l) := by
  intro depth l
  induction depth, l using traceSubs.induct false maxD with
  | case1 depth => simp [traceSubs]
  | case2 depth n m rest ih => simpa [traceSubs] using ih
  | case3 depth n sub rest ih1 ih2 =>
    simp only [traceSubs, eligCount_append, should_skip_name_hidden_true, Bool.false_eq_true,
      if_false]
    have hfiles := eligCount_fileEvsOf_mono sub
    by_cases hd : within_depth (depth + 1) maxD
    · simp only [hd, Bool.not_true, Bool.false_eq_true, if_false]
      by_cases hskip : should_skip_name n false = true
      · simp only [hskip, if_true, eligCount_nil]
        omega
      · simp only [hskip, Bool.false_eq_true, if_false, eligCount_dirE_cons, eligCount_append]
        omega
    · rw [Bool.not_eq_true] at hd
      simp only [hd, Bool.not_false, if_true, ite_self, eligCount_nil]
      omega

theorem eligCount_traceWalk_mono (maxD : Nat) (root : EntryList) :
    eligCount (traceWalk false maxD root) ≤ eligCount (traceWalk true maxD root) := by
  unfold traceWalk
  by_cases h0 : within_depth 0 maxD
  · simp only [h0, Bool.not_true, Bool.false_eq_true, if_false, eligCount_dirE_cons,
      eligCount_append]
    have := eligCount_fileEvsOf_mono root
    have := eligCount_traceSubs_mono maxD 0 root
    omega
  · rw [Bool.not_eq_true] at h0
    simp [h0]

theorem filesOf_pruneBeyond : ∀ (k : Nat) (l : EntryList),
    filesOf (pruneBeyond k l) = filesOf l := by
  intro k l
  induction k, l using pruneBeyond.induct with
  | case1 k => simp [pruneBeyond, filesOf]
  | case2 k n m rest ih => simp [pruneBeyond, filesOf, ih]
  | case3 n sub rest ih => simp [pruneBeyond, filesOf, ih]
  | case4 k n sub rest ih1 ih2 => simp [pruneBeyond, filesOf, ih2]

theorem fileEvsOf_pruneBeyond (ihid : Bool) (k : Nat) (l : EntryList) :
    fileEvsOf ihid (pruneBeyond k l) = fileEvsOf ihid l := by
  unfold fileEvsOf
  rw [filesOf_pruneBeyond]

theorem traceSubs_pruneBeyond (ihid : Bool) (maxD : Nat) : ∀ (depth : Nat) (l : EntryList),
    depth ≤ maxD →
    traceSubs ihid maxD depth (pruneBeyond (maxD - depth) l) = traceSubs ihid maxD depth l := by
  intro depth l
  induction depth, l using traceSubs.induct ihid maxD with
  | case1 depth =>
    intro _
    simp [pruneBeyond, traceSubs]
  | case2 depth n m rest ih =>
    intro h
    simp only [pruneBeyond, traceSubs]
    exact ih h
  | case3 depth n sub rest ih1 ih2 =>
    intro h
    cases hk : maxD - depth with
    | zero =>
      have hw : within_depth (depth + 1) maxD = false := by
        simp only [within_depth, decide_eq_false_iff_not]
        omega
      rw [hk] at ih2
      simp only [pruneBeyond, traceSubs, hw, Bool.not_false, if_true, ite_self]
      rw [ih2 h]
    | succ k' =>
      have hw : within_depth (depth + 1) maxD = true := by
        simp only [within_depth, decide_eq_true_eq]
        omega
      have hk' : maxD - (depth + 1) = k' := by omega
      rw [hk] at ih2
      rw [hk'] at ih1
      simp only [pruneBeyond, traceSubs, hw, Bool.not_true, Bool.false_eq_true, if_false]
      rw [ih2 h, ih1 (by omega), fileEvsOf_pruneBeyond]

theorem traceWalk_pruneBeyond (ihid : Bool) (maxD : Nat) (root : EntryList) :
    traceWalk ihid maxD (pruneBeyond maxD root) = traceWalk ihid maxD root := by
  unfold traceWalk
  have h := traceSubs_pruneBeyond ihid maxD 0 root (Nat.zero_le maxD)
  rw [Nat.sub_zero] at h
  rw [h, fileEvsOf_pruneBeyond]

theorem traceSubs_beyond (ihid : Bool) (maxD : Nat) : ∀ (depth : Nat) (l : EntryList),
    maxD ≤ depth → traceSubs ihid maxD depth l = [] := by
  intro depth l
  induction depth, l using traceSubs.induct ihid maxD with
  | case1 depth => intro _; simp [traceSubs]
  | case2 depth n m rest ih => intro h; simp only [traceSubs]; exact ih h
  | case3 depth n sub rest ih1 ih2 =>
    intro h
    have hw : within_depth (depth + 1) maxD = false := by
      simp only [within_depth, decide_eq_false_iff_not]
      omega
    simp only [traceSubs, hw, Bool.not_false, if_true, ite_self, List.nil_append]
    exact ih2 h

/-! Characterization of the line counter. -/

theorem trailingTerm_nil (v : Nat) : trailingTerm [] v = v := rfl

theorem trailingTerm_single (c : Char) (v : Nat) :
    trailingTerm [c] v = if c = '\n' then 0 else 1 := rfl

theorem trailingTerm_cons_cons (c r : Char) (rs : List Char) (v w : Nat) :
    trailingTerm (c :: r :: rs) v = trailingTerm (r :: rs) w := by
  unfold trailingTerm
  rw [List.getLast?_cons_cons]
  cases hgl : (r :: rs).getLast? with
  | none => simp at hgl
  | some d => rfl

theorem countLinesAux_eq : ∀ (cs : List Char) (inLine : Bool),
    countLinesAux inLine cs =
      cs.count '\n' + trailingTerm cs (if inLine then 1 else 0) := by
  intro cs
  induction cs with
  | nil => intro inLine; simp [countLinesAux, trailingTerm_nil]
  | cons c rest ih =>
    intro inLine
    cases rest with
    | nil =>
      by_cases hc : c = '\n'
      · simp [countLinesAux, hc, List.count_cons, trailingTerm_single]
      · simp [countLinesAux, hc, List.count_cons, trailingTerm_single]
    | cons r rs =>
      by_cases hc : c = '\n'
      · have h1 : countLinesAux inLine (c :: r :: rs) = 1 + countLinesAux false (r :: rs) := by
          simp [countLinesAux, hc]
        have h3 : (c :: r :: rs).count '\n' = (r :: rs).count '\n' + 1 := by
          simp [List.count_cons, hc]
        rw [h1, ih false,
          trailingTerm_cons_cons c r rs (if inLine then 1 else 0) (if false then 1 else 0), h3]
        omega
      · have h1 : countLinesAux inLine (c :: r :: rs) = countLinesAux true (r :: rs) := by
          simp [countLinesAux, hc]
        rw [h1, ih true,
          trailingTerm_cons_cons c r rs (if inLine then 1 else 0) (if true then 1 else 0)]
        have h2 : (c :: r :: rs).count '\n' = (r :: rs).count '\n' := by
          simp [List.count_cons, hc]
        rw [h2]

theorem countLines_eq (cs : List Char) :
    countLines cs = cs.count '\n' +
      (if cs ≠ [] ∧ cs.getLast? ≠ some '\n' then 1 else 0) := by
  rw [countLines, countLinesAux_eq]
  congr 1
  cases hgl : cs.getLast? with
  | none =>
    have : cs = [] := by
      cases cs with
      | nil => rfl
      | cons x xs => exact absurd hgl (by simp)
    rw [this]
    simp [trailingTerm_nil]
  | some d =>
    have hne : cs ≠ [] := by
      intro hEq
      rw [hEq] at hgl
      cases hgl
    unfold trailingTerm
    rw [hgl]
    by_cases hd : d = '\n'
    · simp [hd, hne]
    · simp only [hd, if_false, hne, ne_eq, not_false_iff, true_and]
      have : ¬(some d = some '\n') := by
        intro hEq
        injection hEq with hEq
        exact hd hEq
      simp [this]

/-! Characterization of extension normalization. -/

theorem toLower_toNat_ofNat {n : Nat} (h1 : 97 ≤ n) (h2 : n ≤ 122) :
    (Char.ofNat n).toNat = n := by
  have hv : n.isValidChar := Or.inl (by omega)
  unfold Char.ofNat
  rw [dif_pos hv]
  unfold Char.ofNatAux Char.toNat
  simp [UInt32.toNat]

theorem toLower_ne_dot (c : Char) (h : c ≠ '.') : Char.toLower c ≠ '.' := by
  unfold Char.toLower
  by_cases hr : c.toNat ≥ 65 ∧ c.toNat ≤ 90
  · rw [if_pos hr]
    intro hEq
    have h2 : (Char.ofNat (c.toNat + 32)).toNat = ('.' : Char).toNat := by rw [hEq]
    rw [toLower_toNat_ofNat (by omega) (by omega)] at h2
    have hdot : ('.' : Char).toNat = 46 := by decide
    omega
  · rw [if_neg hr]
    exact h

theorem takeWhile_append_all {α : Type} (p : α → Bool) :
    ∀ (a b : List α), (∀ x ∈ a, p x = true) →
    (a ++ b).takeWhile p = a ++ b.takeWhile p := by
  intro a b
  induction a with
  | nil => intro _; simp
  | cons x xs ih =>
    intro h
    have hx : p x = true := h x (List.mem_cons_self x xs)
    simp only [List.cons_append, List.takeWhile_cons, hx, if_true]
    rw [ih fun y hy => h y (List.mem_cons_of_mem x hy)]

theorem dropWhile_append_all {α : Type} (p : α → Bool) :
    ∀ (a b : List α), (∀ x ∈ a, p x = true) →
    (a ++ b).dropWhile p = b.dropWhile p := by
  intro a b
  induction a with
  | nil => intro _; simp
  | cons x xs ih =>
    intro h
    have hx : p x = true := h x (List.mem_cons_self x xs)
    simp only [List.cons_append, List.dropWhile_cons, hx, if_true]
    exact ih fun y hy => h y (List.mem_cons_of_mem x hy)

theorem lastDotIdx_none_iff : ∀ (cs : List Char), lastDotIdx cs = none ↔ '.' ∉ cs := by
  intro cs
  induction cs with
  | nil => simp [lastDotIdx]
  | cons c rest ih =>
    constructor
    · intro h
      simp only [lastDotIdx] at h
      cases hrest : lastDotIdx rest with
      | some i => rw [hrest] at h; cases h
      | none =>
        rw [hrest] at h
        by_cases hc : c = '.'
        · rw [if_pos hc] at h; cases h
        · intro hmem
          rcases List.mem_cons.mp hmem with hmem | hmem
          · exact hc hmem.symm
          · exact (ih.mp hrest) hmem
    · intro h
      have hc : ¬c = '.' := fun hEq => h (by rw [hEq]; exact List.mem_cons_self '.' rest)
      have hrest : '.' ∉ rest := fun hm => h (List.mem_cons_of_mem c hm)
      simp only [lastDotIdx, ih.mpr hrest, if_neg hc]

theorem lastDotIdx_some : ∀ (cs : List Char) (i : Nat), lastDotIdx cs = some i →
    ∃ pre post, cs = pre ++ '.' :: post ∧ pre.length = i ∧ '.' ∉ post := by
  intro cs
  induction cs with
  | nil => intro i h; cases h
  | cons c rest ih =>
    intro i h
    simp only [lastDotIdx] at h
    cases hrest : lastDotIdx rest with
    | some j =>
      rw [hrest] at h
      injection h with h
      obtain ⟨pre, post, h1, h2, h3⟩ := ih j hrest
      refine ⟨c :: pre, post, by rw [h1]; rfl, ?_, h3⟩
      simp [h2, ← h]
    | none =>
      rw [hrest] at h
      by_cases hc : c = '.'
      · rw [if_pos hc] at h
        injection h with h
        refine ⟨[], rest, by rw [hc]; rfl, by simp [← h], (lastDotIdx_none_iff rest).mp hrest⟩
      · rw [if_neg hc] at h; cases h

theorem normalize_ext_eq_from_spec (name : String) :
    normalize_ext name = normalize_ext_from_spec name := by
  unfold normalize_ext normalize_ext_from_spec path_suffix
  cases hld : lastDotIdx name.data with
  | none =>
    have hmem : '.' ∉ name.data := (lastDotIdx_none_iff _).mp hld
    simp [hmem, lstripDots]
  | some i =>
    obtain ⟨pre, post, hcs, hlen, hpost⟩ := lastDotIdx_some _ i hld
    have hrev : name.data.reverse = post.reverse ++ '.' :: pre.reverse := by
      rw [hcs]
      simp
    have hallpost : ∀ x ∈ post.reverse, (fun c => decide (c ≠ '.')) x = true := by
      intro x hx
      simp only [decide_eq_true_eq]
      intro hEq
      rw [hEq] at hx
      exact hpost (List.mem_reverse.mp hx)
    have htake : name.data.reverse.takeWhile (fun c => decide (c ≠ '.')) = post.reverse := by
      rw [hrev, takeWhile_append_all _ _ _ hallpost]
      simp [List.takeWhile_cons]
    have hdrop : name.data.reverse.dropWhile (fun c => decide (c ≠ '.')) = '.' :: pre.reverse := by
      rw [hrev, dropWhile_append_all _ _ _ hallpost]
      simp [List.dropWhile_cons]
    have hmem : '.' ∈ name.data := by
      rw [hcs]
      exact List.mem_append_right _ (List.mem_cons_self _ _)
    have hlength : name.data.length = i + 1 + post.length := by
      rw [hcs]
      simp [hlen]
      omega
    dsimp only
    by_cases h0 : 0 < i
    · cases post with
      | nil =>
        have hl0 : name.data.length = i + 1 := by simpa using hlength
        rw [if_neg (by omega : ¬(0 < i ∧ i + 1 < name.data.length))]
        rw [if_neg (show ¬(('.' ∈ name.data) ∧
            name.data.reverse.takeWhile (fun c => decide (c ≠ '.')) ≠ [] ∧
            2 ≤ (name.data.reverse.dropWhile (fun c => decide (c ≠ '.'))).length) from by
          intro hcond
          exact hcond.2.1 (by rw [htake]; rfl))]
        simp [lstripDots]
      | cons p0 ps =>
        have hp0 : p0 ≠ '.' := fun hEq => hpost (by rw [hEq]; exact List.mem_cons_self _ _)
        have hdropl : name.data.drop i = '.' :: p0 :: ps := by
          rw [hcs, ← hlen, List.drop_left]
        have hsuffix : lstripDots (List.map Char.toLower ('.' :: p0 :: ps)) =
            Char.toLower p0 :: List.map Char.toLower ps := by
          have hdotlower : Char.toLower '.' = '.' := by decide
          have hmap : List.map Char.toLower ('.' :: p0 :: ps) =
              '.' :: Char.toLower p0 :: List.map Char.toLower ps := by
            simp [hdotlower]
          rw [hmap]
          unfold lstripDots
          rw [List.dropWhile_cons, List.dropWhile_cons]
          simp [toLower_ne_dot p0 hp0]
        rw [if_pos (show 0 < i ∧ i + 1 < name.data.length from ⟨h0, by
          rw [hlength, List.length_cons]; omega⟩)]
        rw [if_pos (show ('.' ∈ name.data) ∧
            name.data.reverse.takeWhile (fun c => decide (c ≠ '.')) ≠ [] ∧
            2 ≤ (name.data.reverse.dropWhile (fun c => decide (c ≠ '.'))).length from
          ⟨hmem, by rw [htake]; simp, by rw [hdrop]; simp; omega⟩)]
        rw [hdropl, htake, List.reverse_reverse, hsuffix]
        rw [if_pos (by simp)]
    · rw [if_neg (by omega : ¬(0 < i ∧ i + 1 < name.data.length))]
      rw [if_neg (show ¬(('.' ∈ name.data) ∧
          name.data.reverse.takeWhile (fun c => decide (c ≠ '.')) ≠ [] ∧
          2 ≤ (name.data.reverse.dropWhile (fun c => decide (c ≠ '.'))).length) from by
        intro hcond
        have := hcond.2.2
        rw [hdrop] at this
        simp at this
        omega)]
      simp [lstripDots]

/-! Properties of the ranking order of build_output. -/

theorem char_eq_of_toNat_eq {a b : Char} (h : a.toNat = b.toNat) : a = b :=
  Char.eq_of_val_eq (UInt32.toNat.inj h)

theorem lexLE_total : ∀ (a b : List Char), lexLE a b = true ∨ lexLE b a = true := by
  intro a
  induction a with
  | nil => intro b; left; cases b <;> simp [lexLE]
  | cons x xs ih =>
    intro b
    cases b with
    | nil => right; simp [lexLE]
    | cons y ys =>
      by_cases hxy : x.toNat < y.toNat
      · left; simp [lexLE, hxy]
      · by_cases hyx : y.toNat < x.toNat
        · right; simp [lexLE, hyx]
        · rcases ih ys with h | h
          · left; simp [lexLE, hxy, hyx, h]
          · right; simp [lexLE, hxy, hyx, h]

theorem lexLE_trans : ∀ (a b c : List Char),
    lexLE a b = true → lexLE b c = true → lexLE a c = true := by
  intro a
  induction a with
  | nil => intro b c _ _; cases c <;> simp [lexLE]
  | cons x xs ih =>
    intro b c hab hbc
    cases b with
    | nil => simp [lexLE] at hab
    | cons y ys =>
      cases c with
      | nil => simp [lexLE] at hbc
      | cons z zs =>
        simp only [lexLE] at hab hbc ⊢
        rcases Nat.lt_trichotomy x.toNat y.toNat with hxy | hxy | hxy
        · rcases Nat.lt_trichotomy y.toNat z.toNat with hyz | hyz | hyz
          · rw [if_pos (by omega : x.toNat < z.toNat)]
          · rw [if_pos (by omega : x.toNat < z.toNat)]
          · rw [if_neg (by omega), if_pos hyz] at hbc
            cases hbc
        · rcases Nat.lt_trichotomy y.toNat z.toNat with hyz | hyz | hyz
          · rw [if_pos (by omega : x.toNat < z.toNat)]
          · rw [if_neg (by omega), if_neg (by omega)] at hab
            rw [if_neg (by omega), if_neg (by omega)] at hbc
            rw [if_neg (by omega), if_neg (by omega)]
            exact ih ys zs hab hbc
          · rw [if_neg (by omega), if_pos hyz] at hbc
            cases hbc
        · rw [if_neg (by omega), if_pos hxy] at hab
          cases hab

theorem lexLE_antisymm : ∀ (a b : List Char),
    lexLE a b = true → lexLE b a = true → a = b := by
  intro a
  induction a with
  | nil => intro b _ hba; cases b with | nil => rfl | cons y ys => simp [lexLE] at hba
  | cons x xs ih =>
    intro b hab hba
    cases b with
    | nil => simp [lexLE] at hab
    | cons y ys =>
      simp only [lexLE] at hab hba
      by_cases hxy : x.toNat < y.toNat
      · rw [if_neg (by omega), if_pos hxy] at hba
        cases hba
      · by_cases hyx : y.toNat < x.toNat
        · rw [if_neg (by omega), if_pos hyx] at hab
          cases hab
        · simp only [hxy, hyx, if_false] at hab hba
          have hEq : x = y := char_eq_of_toNat_eq (by omega)
          rw [hEq, ih ys hab hba]

theorem groupLE_total : ∀ a b : ExtGroup, groupLE a b = true ∨ groupLE b a = true := by
  intro a b
  unfold groupLE
  by_cases hf : a.files = b.files
  · rw [if_pos hf, if_pos hf.symm]
    by_cases hl : a.lines = b.lines
    · rw [if_pos hl, if_pos hl.symm]
      exact lexLE_total a.ext.data b.ext.data
    · rw [if_neg hl, if_neg (fun h => hl h.symm)]
      rcases Nat.lt_trichotomy a.lines b.lines with h | h | h
      · right; simp [h]
      · exact absurd h hl
      · left; simp [h]
  · rw [if_neg hf, if_neg (fun h => hf h.symm)]
    rcases Nat.lt_trichotomy a.files b.files with h | h | h
    · right; simp [h]
    · exact absurd h hf
    · left; simp [h]

theorem groupLE_trans : ∀ a b c : ExtGroup,
    groupLE a b = true → groupLE b c = true → groupLE a c = true := by
  intro a b c hab hbc
  unfold groupLE at hab hbc ⊢
  by_cases hfab : a.files = b.files <;> by_cases hfbc : b.files = c.files
  · have hfac : a.files = c.files := hfab.trans hfbc
    rw [if_pos hfab] at hab
    rw [if_pos hfbc] at hbc
    rw [if_pos hfac]
    by_cases hlab : a.lines = b.lines <;> by_cases hlbc : b.lines = c.lines
    · rw [if_pos hlab] at hab
      rw [if_pos hlbc] at hbc
      rw [if_pos (hlab.trans hlbc)]
      exact lexLE_trans _ _ _ hab hbc
    · rw [if_pos hlab] at hab
      rw [if_neg hlbc] at hbc
      simp only [decide_eq_true_eq] at hbc
      rw [if_neg (by omega)]
      simp only [decide_eq_true_eq]
      omega
    · rw [if_neg hlab] at hab
      simp only [decide_eq_true_eq] at hab
      rw [if_pos hlbc] at hbc
      rw [if_neg (by omega)]
      simp only [decide_eq_true_eq]
      omega
    · rw [if_neg hlab] at hab
      rw [if_neg hlbc] at hbc
      simp only [decide_eq_true_eq] at hab hbc
      rw [if_neg (by omega)]
      simp only [decide_eq_true_eq]
      omega
  · rw [if_pos hfab] at hab
    rw [if_neg hfbc] at hbc
    simp only [decide_eq_true_eq] at hbc
    rw [if_neg (by omega)]
    simp only [decide_eq_true_eq]
    omega
  · rw [if_neg hfab] at hab
    simp only [decide_eq_true_eq] at hab
    rw [if_pos hfbc] at hbc
    rw [if_neg (by omega)]
    simp only [decide_eq_true_eq]
    omega
  · rw [if_neg hfab] at hab
    rw [if_neg hfbc] at hbc
    simp only [decide_eq_true_eq] at hab hbc
    rw [if_neg (by omega)]
    simp only [decide_eq_true_eq]
    omega

theorem groupLE_rankLT {a b : ExtGroup} (h : groupLE a b = true) (hne : a.ext ≠ b.ext) :
    rankLT a b := by
  unfold groupLE at h
  unfold rankLT
  by_cases hf : a.files = b.files
  · rw [if_pos hf] at h
    by_cases hl : a.lines = b.lines
    · rw [if_pos hl] at h
      right
      exact ⟨hf, Or.inr ⟨hl, h, hne⟩⟩
    · rw [if_neg hl] at h
      simp only [decide_eq_true_eq] at h
      right
      exact ⟨hf, Or.inl h⟩
  · rw [if_neg hf] at h
    simp only [decide_eq_true_eq] at h
    left
    exact h

/-! The claims. -/

/-- C1: for every scan and any maxFiles, the reported scannedFiles never
exceeds maxFiles, and in a truncated scan (the cap was hit and the walk
returned early) exactly maxFiles files are counted: the file whose
acceptance would exceed the cap is not itself counted. -/
theorem scanned_files_cap_bound (root : EntryList) (maxD : Nat) (ihid : Bool) (maxF : Nat)
    (s : Stats) (h : collect_stats root maxD ihid maxF = some s) :
    s.scannedFiles ≤ maxF ∧ (s.truncated = true → s.scannedFiles = maxF) := by
  rcases collect_stats_some _ _ _ _ _ h with hr | hr
  · obtain ⟨h1, h2, h3⟩ :=
      replay_ok_spec maxF _ _ _ (by simp [Stats.init]) (by simp [Stats.init]) hr
    exact ⟨h2, fun ht => absurd ht (by simp [h3])⟩
  · obtain ⟨h1, h2, h3⟩ :=
      replay_capped_spec maxF _ _ _ (by simp [Stats.init]) (by simp [Stats.init]) hr
    exact ⟨Nat.le_of_eq h1, fun _ => h1⟩

theorem scanned_files_cap_bound_witness :
    collect_stats wTree 6 false 2 = some wStatsCap ∧
    wStatsCap.scannedFiles ≤ 2 ∧ (wStatsCap.truncated = true → wStatsCap.scannedFiles = 2) :=
  ⟨by decide, (scanned_files_cap_bound wTree 6 false 2 wStatsCap (by decide)).1,
    (scanned_files_cap_bound wTree 6 false 2 wStatsCap (by decide)).2⟩

/-- C2: for every scan that returns a result, the truncated flag is true
exactly when the tree contains strictly more eligible visited files
(passing the hidden-name, depth, regular-file/symlink and binary/size
checks) than maxFiles. -/
theorem truncated_iff_more_eligible (root : EntryList) (maxD : Nat) (ihid : Bool) (maxF : Nat)
    (s : Stats) (h : collect_stats root maxD ihid maxF = some s) :
    s.truncated = true ↔ maxF < eligCount (traceWalk ihid maxD root) := by
  rcases collect_stats_some _ _ _ _ _ h with hr | hr
  · obtain ⟨h1, h2, h3⟩ :=
      replay_ok_spec maxF _ _ _ (by simp [Stats.init]) (by simp [Stats.init]) hr
    simp only [Stats.init] at h1
    constructor
    · intro ht
      exact absurd ht (by simp [h3])
    · intro hlt
      omega
  · obtain ⟨h1, h2, h3⟩ :=
      replay_capped_spec maxF _ _ _ (by simp [Stats.init]) (by simp [Stats.init]) hr
    simp only [Stats.init] at h3
    constructor
    · intro _
      omega
    · intro _
      exact h2

theorem truncated_iff_more_eligible_witness :
    wStatsCap.truncated = true ↔ 2 < eligCount (traceWalk false 6 wTree) :=
  truncated_iff_more_eligible wTree 6 false 2 wStatsCap (by decide)

/-- C3: for every scan result, totalLines equals the sum of the lines
field over all extension buckets, and the report built from it keeps
total_lines and scanned_files unchanged for every topExtensions value
(the report-time truncation drops ranked entries only). -/
theorem total_lines_eq_bucket_sum (root : EntryList) (maxD : Nat) (ihid : Bool) (maxF : Nat)
    (s : Stats) (h : collect_stats root maxD ihid maxF = some s) :
    s.totalLines = sumLines s.extStats ∧
    ∀ topExt : Nat, (build_output s topExt).total_lines = s.totalLines ∧
      (build_output s topExt).scanned_files = s.scannedFiles := by
  have hc := replay_consistent maxF (traceWalk ihid maxD root) Stats.init s
    statsConsistent_init (collect_stats_some _ _ _ _ _ h)
  exact ⟨hc.1, fun topExt => ⟨rfl, rfl⟩⟩

theorem total_lines_eq_bucket_sum_witness :
    collect_stats wTree 6 false 100 = some wStats ∧
    wStats.totalLines = sumLines wStats.extStats ∧
    (build_output wStats 1).total_lines = wStats.totalLines ∧
    (build_output wStats 1).scanned_files = wStats.scannedFiles :=
  ⟨by decide, (total_lines_eq_bucket_sum wTree 6 false 100 wStats (by decide)).1,
    (total_lines_eq_bucket_sum wTree 6 false 100 wStats (by decide)).2 1⟩

/-- C9: on a fixed tree with fixed depth bound and cap, a scan that
includes hidden entries counts at least as many files as the scan that
excludes them. -/
theorem include_hidden_monotone (root : EntryList) (maxD maxF : Nat) (s1 s2 : Stats)
    (h1 : collect_stats root maxD true maxF = some s1)
    (h2 : collect_stats root maxD false maxF = some s2) :
    s2.scannedFiles ≤ s1.scannedFiles := by
  rw [collect_scanned_min _ _ _ _ _ h1] at *
  rw [collect_scanned_min _ _ _ _ _ h2]
  have := eligCount_traceWalk_mono maxD root
  omega

theorem include_hidden_monotone_witness :
    collect_stats wTree 6 true 100 = some wStatsHidden ∧
    collect_stats wTree 6 false 100 = some wStats ∧
    wStats.scannedFiles ≤ wStatsHidden.scannedFiles :=
  ⟨by decide, by decide,
    include_hidden_monotone wTree 6 100 wStatsHidden wStats (by decide) (by decide)⟩

/-- C10: when a scan is truncated, the walk splits at the eligible file
that triggered the cap: replaying only the events before it from the
empty accumulator already yields every field of the result except the
truncated flag, so the trigger file contributes to no extension bucket,
no line total and no skip count, and scannedFiles is exactly maxFiles. -/
theorem cap_trigger_frame (root : EntryList) (maxD : Nat) (ihid : Bool) (maxF : Nat)
    (s : Stats) (h : collect_stats root maxD ihid maxF = some s) (ht : s.truncated = true) :
    ∃ pre nm m post,
      traceWalk ihid maxD root = pre ++ Ev.fileE nm m :: post ∧
      eligibleFile m = true ∧
      replay maxF pre Stats.init = .ok { s with truncated := false } ∧
      s.scannedFiles = maxF := by
  rcases collect_stats_some _ _ _ _ _ h with hr | hr
  · obtain ⟨h1, h2, h3⟩ :=
      replay_ok_spec maxF _ _ _ (by simp [Stats.init]) (by simp [Stats.init]) hr
    exact absurd ht (by simp [h3])
  · exact replay_capped_split maxF _ _ _ (by simp [Stats.init]) (by simp [Stats.init]) hr

theorem cap_trigger_frame_witness :
    ∃ pre nm m post,
      traceWalk false 6 wTree = pre ++ Ev.fileE nm m :: post ∧
      eligibleFile m = true ∧
      replay 2 pre Stats.init = .ok { wStatsCap with truncated := false } ∧
      wStatsCap.scannedFiles = 2 :=
  cap_trigger_frame wTree 6 false 2 wStatsCap (by decide) (by decide)

/-- C4 counterexample: with maxDepth = 1 the file a/f.txt has
maxDepth + 1 = 2 path segments relative to the root, since its parent
directory sits at depth 1 = maxDepth and passes within_depth; the claim
says such a file is never visited and appears in no count, but the scan
counts it (scannedFiles = 1 and its extension bucket and line count are
recorded). -/
theorem depth_plus_one_file_counted :
    collect_stats wTreeDepth 1 false 100 =
      some { extStats := [("txt", 1, 1)], scannedFiles := 1, scannedDirs := 2,
             skippedFiles := 0, totalLines := 1, truncated := false } := by decide

/-- C4 amended: a directory at depth greater than maxDepth contributes
no visit events (it is pruned, its files neither counted nor recorded
as skipped), so a file needs at least maxDepth + 2 path segments to be
beyond reach: emptying the listing of every directory at depth
maxDepth + 1 leaves the scan result unchanged for every includeHidden
and maxFiles setting.  (A file at depth maxDepth + 1 itself is visited
and counted, in a directory at depth maxDepth.) -/
theorem depth_bound_amended :
    (∀ (ihid : Bool) (maxD depth : Nat) (l : EntryList),
      maxD ≤ depth → traceSubs ihid maxD depth l = []) ∧
    (∀ (root : EntryList) (maxD : Nat) (ihid : Bool) (maxF : Nat),
      collect_stats (pruneBeyond maxD root) maxD ihid maxF =
        collect_stats root maxD ihid maxF) := by
  constructor
  · intro ihid maxD depth l h
    exact traceSubs_beyond ihid maxD depth l h
  · intro root maxD ihid maxF
    unfold collect_stats
    rw [traceWalk_pruneBeyond]

theorem depth_bound_amended_witness :
    traceSubs false 1 1
      (EntryList.cons (Entry.dir "d" (EntryList.cons (Entry.file "y.txt" (mText tokLine1))
        EntryList.nil)) EntryList.nil) = [] ∧
    collect_stats (pruneBeyond 1 wTreeDeep) 1 false 5 = collect_stats wTreeDeep 1 false 5 :=
  ⟨depth_bound_amended.1 false 1 1 _ (by decide), depth_bound_amended.2 wTreeDeep 1 false 5⟩

/-- C5 counterexample: a regular, small, non-binary file whose text
open or read fails (for instance deleted between the binary sampling
and the line-counting reopen) makes collect_stats raise: the scan
returns no result instead of counting the file as skipped. -/
theorem read_failure_aborts_scan :
    collect_stats (EntryList.cons (Entry.file "f.txt" mReadFail) EntryList.nil) 6 false 100 =
      none := by decide

/-- C5 amended: an I/O failure during stat or during the binary open
and sample read demotes the file to skipped and the scan continues;
only a failure of the text open or read performed by line_count (a race
after the binary sampling) escapes, and a scan in which every visited
file is text-readable never aborts. -/
theorem per_file_error_amended :
    (∀ (maxF : Nat) (n : String) (m : FileMeta) (st : Stats),
      m.isFile = true → m.isSymlink = false → (m.statOk = false ∨ m.binOpenOk = false) →
      processFile maxF n m st = .ok { st with skippedFiles := st.skippedFiles + 1 }) ∧
    (∀ (root : EntryList) (maxD : Nat) (ihid : Bool) (maxF : Nat),
      evsReadOk (traceWalk ihid maxD root) = true →
      collect_stats root maxD ihid maxF ≠ none) := by
  constructor
  · intro maxF n m st hf hs hfail
    have hbin : is_binary_or_too_large m = true := by
      unfold is_binary_or_too_large
      rcases hfail with h | h
      · simp [h]
      · simp [h]
    unfold processFile
    simp [hf, hs, hbin]
  · intro root maxD ihid maxF hro
    unfold collect_stats
    cases hr : replay maxF (traceWalk ihid maxD root) Stats.init with
    | ok t => simp
    | capped t => simp
    | err => exact absurd hr (replay_no_err maxF _ _ hro)

theorem per_file_error_amended_witness :
    processFile 5 "x.py" mStatFail Stats.init =
      .ok { Stats.init with skippedFiles := Stats.init.skippedFiles + 1 } ∧
    collect_stats wTree 6 false 100 ≠ none :=
  ⟨per_file_error_amended.1 5 "x.py" mStatFail Stats.init (by decide) (by decide)
      (Or.inl (by decide)),
    per_file_error_amended.2 wTree 6 false 100 (by decide)⟩

/-- C6: the reported extension list is the per-extension groups sorted
by files descending, then lines descending, then extension name
ascending (strictly: adjacent entries of the report are in the strict
rank order, a total deterministic order because extensions are
pairwise distinct), truncated to the first topExtensions entries, while
total_lines and scanned_files still reflect the full scan. -/
theorem report_ranking (root : EntryList) (maxD : Nat) (ihid : Bool) (maxF : Nat)
    (s : Stats) (h : collect_stats root maxD ihid maxF = some s) (topExt : Nat) :
    (build_output s topExt).top_extensions =
      (sortLE groupLE (s.extStats.map (fun p => ExtGroup.mk p.1 p.2.1 p.2.2))).take topExt ∧
    (sortLE groupLE (s.extStats.map (fun p => ExtGroup.mk p.1 p.2.1 p.2.2))).Perm
      (s.extStats.map (fun p => ExtGroup.mk p.1 p.2.1 p.2.2)) ∧
    (build_output s topExt).top_extensions.Pairwise rankLT ∧
    (build_output s topExt).top_extensions.length ≤ topExt ∧
    (build_output s topExt).total_lines = s.totalLines ∧
    (build_output s topExt).scanned_files = s.scannedFiles := by
  have hc := replay_consistent maxF (traceWalk ihid maxD root) Stats.init s
    statsConsistent_init (collect_stats_some _ _ _ _ _ h)
  refine ⟨rfl, sortLE_perm _ _, ?_, ?_, rfl, rfl⟩
  · have hne : (s.extStats.map (fun p => ExtGroup.mk p.1 p.2.1 p.2.2)).Pairwise
        (fun a b => a.ext ≠ b.ext) := by
      rw [List.pairwise_map]
      exact hc.2
    have hsorted := pairwise_sortLE groupLE groupLE_total groupLE_trans
      (s.extStats.map (fun p => ExtGroup.mk p.1 p.2.1 p.2.2))
    have hne2 := (List.Perm.pairwise_iff (fun {_ _} hab => Ne.symm hab) (sortLE_perm groupLE
      (s.extStats.map (fun p : String × Nat × Nat => ExtGroup.mk p.1 p.2.1 p.2.2)))).mpr hne
    have hrank := List.Pairwise.imp (fun hab => groupLE_rankLT hab.1 hab.2) (hsorted.and hne2)
    exact List.Pairwise.sublist (List.take_sublist _ _) hrank
  · show (List.take topExt _).length ≤ topExt
    rw [List.length_take]
    exact Nat.min_le_left _ _

theorem report_ranking_witness :
    (build_output wStats 1).top_extensions =
      (sortLE groupLE (wStats.extStats.map (fun p => ExtGroup.mk p.1 p.2.1 p.2.2))).take 1 ∧
    (sortLE groupLE (wStats.extStats.map (fun p => ExtGroup.mk p.1 p.2.1 p.2.2))).Perm
      (wStats.extStats.map (fun p => ExtGroup.mk p.1 p.2.1 p.2.2)) ∧
    (build_output wStats 1).top_extensions.Pairwise rankLT ∧
    (build_output wStats 1).top_extensions.length ≤ 1 ∧
    (build_output wStats 1).total_lines = wStats.totalLines ∧
    (build_output wStats 1).scanned_files = wStats.scannedFiles :=
  report_ranking wTree 6 false 100 wStats (by decide) 1

/-- C7 counterexample: for a file whose content is one malformed byte
and nothing else, decoding with replacement would yield one line, but
the code decodes with errors set to ignore and counts zero lines, so
the claim that malformed byte sequences are replaced during decoding is
false of the code. -/
theorem line_count_ignore_ne_replace :
    line_count (mText [Tok.bad]) = 0 ∧ line_count_replacing (mText [Tok.bad]) = 1 := by
  decide

/-- C7 amended: for every counted file the line count follows
text-iteration semantics over the decoded translated content: it equals
the number of line terminators plus one more when nonempty content
remains after the last terminator; an empty file yields 0 lines; and
malformed byte sequences are dropped (errors set to ignore) during
decoding rather than aborting the count. -/
theorem line_count_amended :
    (∀ m : FileMeta, line_count m =
      (translateNewlines (decodeIgnore m.content)).count '\n' +
        (if translateNewlines (decodeIgnore m.content) ≠ [] ∧
            (translateNewlines (decodeIgnore m.content)).getLast? ≠ some '\n'
         then 1 else 0)) ∧
    (∀ m : FileMeta, m.content = [] → line_count m = 0) := by
  constructor
  · intro m
    rw [line_count, countLines_eq]
  · intro m hm
    unfold line_count
    rw [hm]
    rfl

theorem line_count_amended_witness :
    line_count (mText tokLine3) =
      (translateNewlines (decodeIgnore (mText tokLine3).content)).count '\n' +
        (if translateNewlines (decodeIgnore (mText tokLine3).content) ≠ [] ∧
            (translateNewlines (decodeIgnore (mText tokLine3).content)).getLast? ≠ some '\n'
         then 1 else 0) ∧
    line_count (mText []) = 0 :=
  ⟨line_count_amended.1 (mText tokLine3), line_count_amended.2 (mText []) (by decide)⟩

/-- C8: extension normalization returns the final dotted suffix of the
name, lower-cased, with the leading dot stripped, and the sentinel
no_ext when no such suffix exists (shown against an independent
formulation that locates the suffix from the reversed name); in
particular README and .gitignore map to no_ext and archive.tar.gz maps
to gz. -/
theorem normalize_ext_spec :
    (∀ name : String, normalize_ext name = normalize_ext_from_spec name) ∧
    normalize_ext "README" = "no_ext" ∧
    normalize_ext "archive.tar.gz" = "gz" ∧
    normalize_ext ".gitignore" = "no_ext" :=
  ⟨normalize_ext_eq_from_spec, by decide, by decide, by decide⟩
